import Mathlib

/-!
Verification development for the ore-pool server core
(`src/server/src/aggregator.rs`, `src/server/src/contribute.rs`).

The Rust code is shallowly embedded: machine integers are modelled as `Nat`
with an explicit `% 2 ^ w` wherever the source performs width-`w` wrapping
arithmetic that can actually wrap; pure functions become Lean functions;
fallible code returns `Except`.  External dependencies (drillx difficulty,
solana PDA derivation, the SHA3 hash core, chain RPC fetches) are passed in
as explicit function parameters, since only their call sites live in this
repository.
-/

namespace OrePool

/-- A solana public key, modelled by its base58 string rendering
(the rendering is injective on 32-byte keys, and the aggregator only
ever compares keys for equality or displays them). -/
abbrev Pubkey := String

/-- Embeds `drillx::Solution`: a 16-byte digest `d` and an 8-byte nonce `n`
(bytes modelled as `Nat` values below 256). -/
structure Solution where
  d : List Nat
  n : List Nat
deriving DecidableEq, Repr

/-- Embeds `Contribution` from `aggregator.rs`: member key, difficulty score,
and the submitted solution.  Its `PartialEq`/`Hash` impls compare the
member alone. -/
structure Contribution where
  member : Pubkey
  score : Nat
  solution : Solution
deriving DecidableEq, Repr

/-- Embeds `Winner` from `aggregator.rs`: the best solution plus its difficulty. -/
structure Winner where
  solution : Solution
  difficulty : Nat
deriving DecidableEq, Repr

/-- The round-local mutable fields of `Aggregator`:
the contribution set (a `HashSet` keyed by member, modelled as the list of
contributions in insertion order), the running total score, and the best
solution so far. -/
structure RoundState where
  contributions : List Contribution
  total_score : Nat
  winner : Option Winner
deriving DecidableEq, Repr

/-- Member keys of a contribution list (the key set of the `HashSet`). -/
def memberKeys (cs : List Contribution) : List Pubkey :=
  cs.map Contribution.member

/-- Membership test of the `HashSet` insert: `Contribution`'s `PartialEq`
compares `member` alone. -/
def hasMember (seen : List Pubkey) (m : Pubkey) : Bool :=
  seen.any (fun x => x == m)

/-- Wrapping cast to 64-bit width: the value of a `u64` arithmetic result. -/
def u64 (n : Nat) : Nat := n % 2 ^ 64

/-- One step of the winner update inside `Aggregator::insert`
(lines 201-208): replace the current winner only on strictly larger
difficulty; a first contribution always becomes the winner. -/
def wstep (diff : Solution → Nat) (w : Option Winner) (c : Contribution) : Option Winner :=
  match w with
  | some w => if diff c.solution > w.difficulty then some ⟨c.solution, diff c.solution⟩ else some w
  | none => some ⟨c.solution, diff c.solution⟩

/-- Embeds `Aggregator::insert` (aggregator.rs lines 192-214).  `diff` is
`drillx`'s `solution.to_hash().difficulty()`, an external function.
A duplicate member leaves the state unchanged (only a log is emitted);
the score accumulation `total_score += contribution.score` is `u64`
arithmetic, so its value wraps at `2 ^ 64`. -/
def insert (diff : Solution → Nat) (s : RoundState) (c : Contribution) : RoundState :=
  if hasMember (memberKeys s.contributions) c.member then s
  else
    { contributions := s.contributions ++ [c]
      total_score := u64 (s.total_score + c.score)
      winner := wstep diff s.winner c }

/-- The round-local fields as built by `Aggregator::new`
(aggregator.rs lines 180-188): empty set, zero score, no winner. -/
def new : RoundState :=
  { contributions := [], total_score := 0, winner := none }

/-- The round-local effect of `Aggregator::reset` (aggregator.rs lines
520-528): clear contributions, total score and winner.  (The challenge
refresh it also performs is modelled separately by `update_challenge`.) -/
def reset (_s : RoundState) : RoundState :=
  { contributions := [], total_score := 0, winner := none }

/-- Sum of the `score` fields over a contribution list. -/
def scoreSum (cs : List Contribution) : Nat :=
  (cs.map Contribution.score).sum

/-- The round-state invariant stated in the spec (section 3, RoundState):
`total_score` is the sum of the scores and a winner exists exactly when
the contribution set is non-empty. -/
def Inv (s : RoundState) : Prop :=
  s.total_score = scoreSum s.contributions ∧ (s.winner.isSome ↔ s.contributions ≠ [])

instance (s : RoundState) : Decidable (Inv s) := by
  unfold Inv; infer_instance

/-- First-per-member filtering of a contribution sequence, carrying the
set of member keys already seen.  This is the spec's description of
deduplication: each member's first contribution is kept, later ones are
dropped. -/
def dedupSeen (seen : List Pubkey) : List Contribution → List Contribution
  | [] => []
  | c :: cs =>
    if hasMember seen c.member then dedupSeen seen cs
    else c :: dedupSeen (seen ++ [c.member]) cs

/-- The accepted (first-per-member) subsequence of a contribution
sequence, per the spec's dedup rule. -/
def dedup_by_member (cs : List Contribution) : List Contribution :=
  dedupSeen [] cs

/-- Folding a whole contribution sequence into a round state. -/
def insertAll (diff : Solution → Nat) (cs : List Contribution) : RoundState :=
  cs.foldl (insert diff) new

theorem memberKeys_append (cs : List Contribution) (c : Contribution) :
    memberKeys (cs ++ [c]) = memberKeys cs ++ [c.member] := by
  simp [memberKeys]

/-- Master characterization of a fold of `insert` over an arbitrary
starting state: the accepted contributions are appended, their scores are
accumulated with the wrapping `u64` addition, and the winner is folded
with `wstep` over exactly the accepted ones. -/
theorem foldl_insert_eq (diff : Solution → Nat) (cs : List Contribution) :
    ∀ s : RoundState,
      cs.foldl (insert diff) s =
        { contributions := s.contributions ++ dedupSeen (memberKeys s.contributions) cs
          total_score := (dedupSeen (memberKeys s.contributions) cs).foldl
            (fun t c => u64 (t + c.score)) s.total_score
          winner := (dedupSeen (memberKeys s.contributions) cs).foldl (wstep diff) s.winner } := by
  induction cs with
  | nil => intro s; simp [dedupSeen]
  | cons c cs ih =>
    intro s
    by_cases h : hasMember (memberKeys s.contributions) c.member
    · have hins : insert diff s c = s := by simp [insert, h]
      simp only [List.foldl_cons, hins, dedupSeen, h, if_true, ih s]
    · have hins : insert diff s c =
          { contributions := s.contributions ++ [c]
            total_score := u64 (s.total_score + c.score)
            winner := wstep diff s.winner c } := by
        simp [insert, h]
      simp only [List.foldl_cons, hins]
      rw [ih]
      simp only [memberKeys_append, dedupSeen, h, Bool.false_eq_true, if_false,
        RoundState.mk.injEq, List.append_assoc, List.foldl_cons]
      exact ⟨rfl, trivial, trivial⟩

/-- Maximum difficulty over a contribution list (0 on the empty list),
per the spec's words "max over inserted contributions' difficulties". -/
def maxDifficulty (diff : Solution → Nat) : List Contribution → Nat
  | [] => 0
  | c :: cs => max (diff c.solution) (maxDifficulty diff cs)

/-- The winner described by the spec's words: the first accepted
contribution whose difficulty attains the maximum ("on ties, the first
inserted wins"). -/
def specWinner (diff : Solution → Nat) (cs : List Contribution) : Option Winner :=
  (cs.find? (fun c => diff c.solution == maxDifficulty diff cs)).map
    (fun c => ⟨c.solution, diff c.solution⟩)

/-- Sequentialized winner fold starting from a present winner. -/
def selectFrom (diff : Solution → Nat) (w : Winner) : List Contribution → Winner
  | [] => w
  | c :: cs =>
    if diff c.solution > w.difficulty then selectFrom diff ⟨c.solution, diff c.solution⟩ cs
    else selectFrom diff w cs

theorem foldl_wstep_some (diff : Solution → Nat) (cs : List Contribution) :
    ∀ w : Winner, cs.foldl (wstep diff) (some w) = some (selectFrom diff w cs) := by
  induction cs with
  | nil => intro w; rfl
  | cons c cs ih =>
    intro w
    by_cases h : diff c.solution > w.difficulty <;>
      simp [wstep, selectFrom, h, ih]

theorem selectFrom_difficulty (diff : Solution → Nat) (cs : List Contribution) :
    ∀ w : Winner, (selectFrom diff w cs).difficulty = max w.difficulty (maxDifficulty diff cs) := by
  induction cs with
  | nil => intro w; simp [selectFrom, maxDifficulty]
  | cons c cs ih =>
    intro w
    by_cases h : diff c.solution > w.difficulty <;>
      simp only [selectFrom, h, if_true, if_false, ih, maxDifficulty] <;> omega

theorem selectFrom_of_le (diff : Solution → Nat) (cs : List Contribution) :
    ∀ w : Winner, maxDifficulty diff cs ≤ w.difficulty → selectFrom diff w cs = w := by
  induction cs with
  | nil => intro w _; rfl
  | cons c cs ih =>
    intro w hle
    simp only [maxDifficulty, max_le_iff] at hle
    have h : ¬ diff c.solution > w.difficulty := by omega
    simp only [selectFrom, h, if_false]
    exact ih w hle.2

theorem selectFrom_of_lt (diff : Solution → Nat) (cs : List Contribution) :
    ∀ w : Winner, w.difficulty < maxDifficulty diff cs →
      some (selectFrom diff w cs) =
        (cs.find? (fun c => diff c.solution == maxDifficulty diff cs)).map
          (fun c => ⟨c.solution, diff c.solution⟩) := by
  induction cs with
  | nil => intro w h; simp [maxDifficulty] at h
  | cons c cs ih =>
    intro w hlt
    by_cases h : diff c.solution > w.difficulty
    · by_cases hm : maxDifficulty diff cs ≤ diff c.solution
      · have hmax : maxDifficulty diff (c :: cs) = diff c.solution := by
          simp only [maxDifficulty]; omega
        rw [@List.find?_cons_of_pos _
            (fun x => diff x.solution == maxDifficulty diff (c :: cs)) c cs (by simp [hmax]),
          Option.map_some']
        simp only [selectFrom, h, if_true]
        rw [selectFrom_of_le diff cs _ hm]
      · have hmax : maxDifficulty diff (c :: cs) = maxDifficulty diff cs := by
          simp only [maxDifficulty]; omega
        rw [@List.find?_cons_of_neg _
            (fun x => diff x.solution == maxDifficulty diff (c :: cs)) c cs
            (by simp only [beq_iff_eq, hmax]; omega)]
        simp only [selectFrom, h, if_true, hmax]
        exact ih ⟨c.solution, diff c.solution⟩
          (by show diff c.solution < maxDifficulty diff cs; omega)
    · have hmax : maxDifficulty diff (c :: cs) = maxDifficulty diff cs := by
        simp only [maxDifficulty] at hlt ⊢; omega
      rw [@List.find?_cons_of_neg _
          (fun x => diff x.solution == maxDifficulty diff (c :: cs)) c cs
          (by simp only [beq_iff_eq, hmax]; omega)]
      simp only [selectFrom, h, if_false, hmax]
      exact ih w (by omega)

/-- Wrapping cast to 128-bit width: the value of a `u128` arithmetic result. -/
def u128 (n : Nat) : Nat := n % 2 ^ 128

/-- Embeds `u128::saturating_mul`. -/
def u128satMul (a b : Nat) : Nat := min (a * b) (2 ^ 128 - 1)

/-- Embeds `ore_api::event::BoostEvent`: a boost mint and its reward amount. -/
structure BoostEvent where
  mint : Pubkey
  reward : Nat
deriving DecidableEq, Repr

/-- Embeds `webhook::Rewards`: base mine reward plus up to three boost events. -/
structure Rewards where
  base : Nat
  boost_1 : Option BoostEvent
  boost_2 : Option BoostEvent
  boost_3 : Option BoostEvent
deriving DecidableEq, Repr

/-- The staker snapshot for one boost mint: stake authority to balance. -/
abbrev StakerBalances := List (Pubkey × Nat)

/-- Embeds `Stakers`: map from boost mint to its staker balances, modelled as an
association list. -/
abbrev Stakers := List (Pubkey × StakerBalances)

/-- Association-list lookup standing in for `HashMap::get`. -/
def lookupStake (stake : Stakers) (mint : Pubkey) : Option StakerBalances :=
  (stake.find? (fun p => p.1 == mint)).map Prod.snd

/-- Embeds `Aggregator::split_stake_rewards_for_miners` (aggregator.rs lines
355-376).  The commission difference `100 - oc - sc` is computed in `u64`
(the spec requires `oc + sc ≤ 100`, under which Nat truncated subtraction
agrees with the source); the product and division are `u128`. -/
def split_stake_rewards_for_miners (boost_event : Option BoostEvent)
    (operator_commission staker_commission : Nat) : Nat :=
  match boost_event with
  | some be =>
    let miner_commission_for_stake := 100 - operator_commission - staker_commission
    let stake_rewards := be.reward
    u128 (stake_rewards * miner_commission_for_stake) / 100
  | none => 0

/-- Embeds `Aggregator::rewards_distribution` (aggregator.rs lines 306-353).
`memberPda` is the external `ore_pool_api::state::member_pda` derivation.
Widths follow the source: `rewards.base * miner_commission / 100` is `u64`
arithmetic that is only then cast to `u128`; the per-contribution scaling
is a `u128` saturating multiply followed by `checked_div(denominator)
.unwrap_or(0)` (Lean's `Nat` division is likewise 0 on a zero
denominator), and the final amount is cast back to `u64`. -/
def rewards_distribution (memberPda : Pubkey → Pubkey → String)
    (contributions : List Contribution) (total_score : Nat) (pool : Pubkey)
    (rewards : Rewards) (operator_commission staker_commission : Nat) :
    List (String × Nat) :=
  let denominator := total_score
  let miner_commission := 100 - operator_commission
  let miner_rewards := u64 (rewards.base * miner_commission) / 100
  let miner_rewards_from_stake_1 :=
    split_stake_rewards_for_miners rewards.boost_1 operator_commission staker_commission
  let miner_rewards_from_stake_2 :=
    split_stake_rewards_for_miners rewards.boost_2 operator_commission staker_commission
  let miner_rewards_from_stake_3 :=
    split_stake_rewards_for_miners rewards.boost_3 operator_commission staker_commission
  let total_rewards := u128 (miner_rewards + miner_rewards_from_stake_1
    + miner_rewards_from_stake_2 + miner_rewards_from_stake_3)
  contributions.map (fun c =>
    let score := u128satMul c.score total_rewards
    let score := score / denominator
    (memberPda c.member pool, u64 score))

/-- Embeds `Aggregator::rewards_distribution_boost` (aggregator.rs lines
378-425).  The staker pot is `u128`; the denominator is a `u64` sum of the
snapshot balances; each share is a `u128` saturating multiply, a checked
division (0 on zero denominator), and a final `u64` cast. -/
def rewards_distribution_boost (memberPda : Pubkey → Pubkey → String)
    (stake : Stakers) (pool : Pubkey) (boost_event : Option BoostEvent)
    (staker_commission : Nat) : Except String (List (String × Nat)) :=
  match boost_event with
  | none => .ok []
  | some be =>
    let total_reward := be.reward
    let staker_rewards := u128 (total_reward * staker_commission) / 100
    match lookupStake stake be.mint with
    | none => .error "missing staker balances"
    | some stakers =>
      let denominator := u64 ((stakers.map Prod.snd).sum)
      .ok (stakers.map (fun p =>
        let score := u128satMul p.2 staker_rewards
        let score := score / denominator
        (memberPda p.1 pool, u64 score)))

/-- One of the three conditional stake-accumulation blocks of `Aggregator::rewards_distribution_operator` (aggregator.rs lines
438-464): `r` and the running sum are `u64` arithmetic. -/
def operatorStakeStep (acc : Nat) (b : Option BoostEvent)
    (operator_commission : Nat) : Nat :=
  match b with
  | some be => u64 (acc + u64 (be.reward * operator_commission) / 100)
  | none => acc

/-- Embeds `Aggregator::rewards_distribution_operator` (aggregator.rs lines
427-472).  Every operation here is `u64` arithmetic: base and boost
commission products, the running `stake_rewards` sum, and the final
total. -/
def rewards_distribution_operator (memberPda : Pubkey → Pubkey → String)
    (pool pool_authority : Pubkey) (rewards : Rewards)
    (operator_commission : Nat) : String × Nat :=
  let mine_rewards := u64 (rewards.base * operator_commission) / 100
  let stake_rewards :=
    operatorStakeStep
      (operatorStakeStep
        (operatorStakeStep 0 rewards.boost_1 operator_commission)
        rewards.boost_2 operator_commission)
      rewards.boost_3 operator_commission
  let total_rewards := u64 (mine_rewards + stake_rewards)
  (memberPda pool_authority pool, total_rewards)

/-- The reward carried by an optional boost event (0 when absent). -/
def rewardOf : Option BoostEvent → Nat
  | some be => be.reward
  | none => 0

/-- Modelled from the spec, section 4.6: the full-width share
`reward * commission / 100` taken from an optional boost stream. -/
def spec_boost_part (b : Option BoostEvent) (commission : Nat) : Nat :=
  match b with
  | some be => be.reward * commission / 100
  | none => 0

/-- Modelled from the spec, section 4.6 (RewardsAllocator), for comparison
with the embedded code: the miner pot with all arithmetic performed at
full (at least 128-bit) width. -/
def spec_miner_pot (rewards : Rewards) (operator_commission staker_commission : Nat) : Nat :=
  rewards.base * (100 - operator_commission) / 100
    + spec_boost_part rewards.boost_1 (100 - operator_commission - staker_commission)
    + spec_boost_part rewards.boost_2 (100 - operator_commission - staker_commission)
    + spec_boost_part rewards.boost_3 (100 - operator_commission - staker_commission)

/-- Modelled from the spec, section 4.6: a miner's share of the pot,
full-width arithmetic, truncating division, 0 on a zero denominator. -/
def spec_miner_amount (score pot denominator : Nat) : Nat :=
  score * pot / denominator

/-- Modelled from the spec, section 4.6: the staker pot of one boost
stream, full-width arithmetic. -/
def spec_staker_pot (be : BoostEvent) (staker_commission : Nat) : Nat :=
  be.reward * staker_commission / 100

/-- Modelled from the spec, section 4.6: the operator's single amount,
full-width arithmetic. -/
def spec_operator_amount (rewards : Rewards) (operator_commission : Nat) : Nat :=
  rewards.base * operator_commission / 100
    + (spec_boost_part rewards.boost_1 operator_commission
        + spec_boost_part rewards.boost_2 operator_commission
        + spec_boost_part rewards.boost_3 operator_commission)

/-- The score computation of the `/contribute` handler
(contribute.rs line 51): `2u64.pow(difficulty)`, a `u64` power whose
value wraps at 64 bits when it overflows. -/
def scoreOfDifficulty (difficulty : Nat) : Nat :=
  u64 (2 ^ difficulty)

/-- The `/contribute` handler's decision chain (contribute.rs lines
23-62): signature check, minimum-difficulty check, digest validity check,
then a contribution with score `2u64.pow(difficulty)` is sent to the
aggregator channel.  Signature and digest verification are external
(solana / drillx) and enter as booleans. -/
inductive ContributeResponse where
  | unauthorized
  | badRequest
  | accepted (c : Contribution)
deriving DecidableEq, Repr

/-- The `/contribute` handler itself. -/
def contribute (signatureValid digestValid : Bool) (min_difficulty : Nat)
    (authority : Pubkey) (solution : Solution) (difficulty : Nat) : ContributeResponse :=
  if ¬ signatureValid then .unauthorized
  else if difficulty < min_difficulty then .badRequest
  else if ¬ digestValid then .badRequest
  else .accepted { member := authority, score := scoreOfDifficulty difficulty, solution := solution }

/-- Lowercase hex digit character, as produced by the Rust 02x format. -/
def hexDigitChar (n : Nat) : Char :=
  if n < 10 then Char.ofNat (48 + n) else Char.ofNat (87 + n)

/-- Two lowercase hex digits of one byte, the Rust 02x zero-padded hex format. -/
def hexByte (b : Nat) : String :=
  String.mk [hexDigitChar (b / 16 % 16), hexDigitChar (b % 16)]

/-- The fold over `solution.d` in `Aggregator::attestation`
(aggregator.rs lines 498-506): hex-format each byte and concatenate. -/
def hexOfBytes (bs : List Nat) : String :=
  bs.foldl (fun acc b => acc ++ hexByte b) ""

/-- Embeds `u64::from_le_bytes` on the 8-byte nonce: little-endian value. -/
def leU64 (bs : List Nat) : Nat :=
  bs.foldr (fun b acc => b + 256 * acc) 0

/-- One attestation line (aggregator.rs lines 507-512): member base58
rendering, a space, the hex digest, a space, the decimal little-endian
nonce value, and a terminating newline. -/
def contributionLine (c : Contribution) : String :=
  c.member ++ " " ++ hexOfBytes c.solution.d ++ " " ++ toString (leU64 c.solution.n) ++ "\n"

/-- Embeds `Aggregator::attestation` (aggregator.rs lines 492-518).  The SHA3-256
core of the `sha3` crate is external and enters as `H`; the incremental
`hasher.update` calls are modelled by accumulating the absorbed text, so
`attestation` hashes whatever byte stream the updates fed in.  The
contribution set is traversed in its iteration order, modelled by the
list order. -/
def attestation (H : String → List Nat) (contributions : List Contribution) : List Nat :=
  H (contributions.foldl (fun acc c => acc ++ contributionLine c) "")

/-- Modelled from the spec, section 6 (Attestation format): the canonical
line serialization, one line per contribution, each terminated by its
newline with no separator beyond the last line's newline. -/
def canonical_serialization : List Contribution → String
  | [] => ""
  | c :: cs => contributionLine c ++ canonical_serialization cs

/-- Embeds `ore_api::state::Bus`, the two fields `find_bus` reads. -/
structure Bus where
  id : Nat
  rewards : Nat
deriving DecidableEq, Repr

/-- The loop body of `Aggregator::find_bus` (aggregator.rs lines
481-488): keep the strictly best rewards balance seen, remembering the
bus id it came from. -/
def busStep (acc : Nat × Nat) (oa : Option Bus) : Nat × Nat :=
  match oa with
  | none => acc
  | some bus => if bus.rewards > acc.1 then (bus.rewards, bus.id) else acc

/-- Embeds `Aggregator::find_bus` (aggregator.rs lines 474-490), returning the
index into `BUS_ADDRESSES` of the chosen bus.  `accounts` is the fetched
account vector (in `BUS_ADDRESSES` order): `none` models a missing or
undeserializable account, as skipped by `flatten` and the failing
`try_from_bytes`.  `seed` is the random starting index. -/
def find_bus (seed : Nat) (accounts : List (Option Bus)) : Nat :=
  (accounts.foldl busStep (0, seed)).2

/-- The rewards balance the fetch reported for the bus at index `i`
(0 when the account is missing or unreadable). -/
def fetchedBalance (accounts : List (Option Bus)) (i : Nat) : Nat :=
  match accounts.get? i with
  | some (some b) => b.rewards
  | _ => 0

/-- Every successfully parsed bus account self-reports the index it was
fetched at (true of on-chain bus accounts, whose `id` matches their
address in `BUS_ADDRESSES`). -/
def busAccountsConsistentFrom : Nat → List (Option Bus) → Bool
  | _, [] => true
  | i, none :: rest => busAccountsConsistentFrom (i + 1) rest
  | i, some b :: rest => b.id == i && busAccountsConsistentFrom (i + 1) rest

/-- All fetched balances are zero or unreadable. -/
def allBalancesZero (accounts : List (Option Bus)) : Bool :=
  accounts.all (fun oa => match oa with | some b => b.rewards == 0 | none => true)

/-- Embeds `ore_pool_types::Challenge` as used by the aggregator (the
`lash_hash_at` spelling is the source's). -/
structure Challenge where
  challenge : List Nat
  lash_hash_at : Int
  min_difficulty : Nat
  cutoff_time : Nat
deriving DecidableEq, Repr

/-- One round trip of chain fetches inside `Aggregator::update_challenge`:
`operator.get_proof()`, `operator.get_pool()`, `operator.get_cutoff(..)`
and `operator.min_difficulty()` (all external RPC, assumed to succeed;
their `?` error propagation is orthogonal to the retry loop). -/
structure Fetched where
  proof_challenge : List Nat
  pool_last_hash_at : Int
  cutoff_time : Nat
  min_difficulty : Nat

/-- The retry loop of `Aggregator::update_challenge` (aggregator.rs lines
542-565), with the attempt counter turned into fuel: attempt `i` fetches
`fetch i`; a changed `pool.last_hash_at` refreshes the challenge and
returns; otherwise the loop retries until `max_retries = 10` attempts
have failed.  The 1-second sleep between attempts is real time and is not
modelled. -/
def updateChallengeGo (fetch : Nat → Fetched) (c : Challenge) (i : Nat) :
    Nat → Except String Challenge
  | 0 => .error "failed to fetch new challenge"
  | fuel + 1 =>
    let f := fetch i
    if f.pool_last_hash_at ≠ c.lash_hash_at then
      .ok { challenge := f.proof_challenge
            lash_hash_at := f.pool_last_hash_at
            min_difficulty := f.min_difficulty
            cutoff_time := f.cutoff_time }
    else
      updateChallengeGo fetch c (i + 1) fuel

/-- Embeds `Aggregator::update_challenge` with `max_retries = 10`. -/
def update_challenge (fetch : Nat → Fetched) (c : Challenge) : Except String Challenge :=
  updateChallengeGo fetch c 0 10

/-- Embeds `Aggregator::winner` (aggregator.rs lines 530-533): the stored winner
or the internal error. -/
def winnerOrError (s : RoundState) : Except String Winner :=
  match s.winner with
  | some w => .ok w
  | none => .error "no solutions were submitted"

/-- The round-state control flow of `Aggregator::submit_and_reset`
(aggregator.rs lines 217-304): `needsReset` is the result of
`check_for_reset` (the on-chain `pool.last_hash_at` differing from the
stored one); if it holds, `reset` runs first.  Then the winner is
selected — or the internal error is returned — and on success the chain
submission, rewards wait and attribution writes happen (external I/O,
not affecting the returned round state) before the final `reset`. -/
def submit_and_reset (s : RoundState) (needsReset : Bool) :
    Except String (Winner × RoundState) :=
  let s1 := if needsReset then reset s else s
  match winnerOrError s1 with
  | .error e => .error e
  | .ok w => .ok (w, reset s1)

/-- The end-of-round decision of `process_contributions` (aggregator.rs
lines 131-152): submit when `total_score > 0`, otherwise block until the
first contribution arrives, insert it, and submit. -/
def driverRound (diff : Solution → Nat) (s : RoundState) (needsReset : Bool)
    (firstContribution : Contribution) : Except String (Winner × RoundState) :=
  if s.total_score > 0 then submit_and_reset s needsReset
  else submit_and_reset (insert diff s firstContribution) needsReset

/-! Concrete inputs used by the closed theorems below. -/

/-- A concrete solution value (the attribution amounts never read it). -/
def exSolution : Solution := ⟨List.replicate 16 0, List.replicate 8 0⟩

/-- The literal rewards event of spec scenario 6. -/
def exRewards : Rewards :=
  { base := 1000, boost_1 := some ⟨"X", 500⟩, boost_2 := none, boost_3 := none }

/-- The staker snapshot of spec scenario 6: one staker, balance 100, mint X. -/
def exStake : Stakers := [("X", [("S", 100)])]

/-- The sole contribution of spec scenario 6: score 256. -/
def exContribution : Contribution := { member := "M", score := 256, solution := exSolution }

/-- A concrete difficulty function. -/
def exDiff : Solution → Nat := fun _ => 8

/-- C3: on the literal scenario `base=1000`, `boost_1=(X,500)`, no other
boosts, commissions 5 and 10, one contribution of score 256 (total 256)
and one staker of balance 100 on mint X, the three attribution
computations produce exactly miner 1375, staker 50, operator 75. -/
theorem rewards_scenario_boost1_values :
    rewards_distribution (fun m _ => m) [exContribution] 256 "P" exRewards 5 10 = [("M", 1375)]
    ∧ rewards_distribution_boost (fun m _ => m) exStake "P" exRewards.boost_1 10
        = .ok [("S", 50)]
    ∧ rewards_distribution_operator (fun m _ => m) "P" "OP" exRewards 5 = ("OP", 75) := by
  refine ⟨by decide, by rfl, by decide⟩

/-- C10: the `/contribute` handler assigns an accepted contribution the
score `2u64.pow(difficulty)`; this equals `2 ^ difficulty` exactly when
`difficulty ≤ 63`, and for `difficulty ≥ 64` the 64-bit power wraps (to
0), with no saturation or error path, so the assigned score is no longer
`2 ^ difficulty`. -/
theorem contribute_score_overflow (d : Nat) (m : Pubkey) (sol : Solution) :
    contribute true true 0 m sol d
      = .accepted { member := m, score := scoreOfDifficulty d, solution := sol }
    ∧ (d ≤ 63 → scoreOfDifficulty d = 2 ^ d)
    ∧ (64 ≤ d → scoreOfDifficulty d ≠ 2 ^ d) := by
  refine ⟨by simp [contribute], ?_, ?_⟩
  · intro h
    unfold scoreOfDifficulty u64
    exact Nat.mod_eq_of_lt (Nat.pow_lt_pow_right (by norm_num) (by omega))
  · intro h
    have hz : scoreOfDifficulty d = 0 := by
      unfold scoreOfDifficulty u64
      have hd : (2 : Nat) ^ d = 2 ^ 64 * 2 ^ (d - 64) := by
        rw [← pow_add]; congr 1; omega
      rw [hd, Nat.mul_mod_right]
    have hp : 0 < 2 ^ d := Nat.pos_pow_of_pos d (by norm_num)
    omega

/-- Witness for `contribute_score_overflow` at difficulties 63 and 64. -/
theorem contribute_score_overflow_witness :
    scoreOfDifficulty 63 = 2 ^ 63 ∧ scoreOfDifficulty 64 ≠ 2 ^ 64 :=
  ⟨(contribute_score_overflow 63 "M" exSolution).2.1 (by decide),
   (contribute_score_overflow 64 "M" exSolution).2.2 (by decide)⟩

theorem wstep_isSome (diff : Solution → Nat) (w : Option Winner) (c : Contribution) :
    (wstep diff w c).isSome := by
  cases w with
  | none => simp [wstep]
  | some w => simp only [wstep]; split <;> simp

/-- C6: contribution identity is the member key alone — after any insert
sequence the stored contributions are exactly the first accepted one per
member, and inserting a contribution whose member is already present
leaves the whole round state unchanged. -/
theorem insert_dedup_by_member :
    (∀ (diff : Solution → Nat) (cs : List Contribution),
      (insertAll diff cs).contributions = dedup_by_member cs)
    ∧ (∀ (diff : Solution → Nat) (s : RoundState) (c : Contribution),
        hasMember (memberKeys s.contributions) c.member = true → insert diff s c = s) := by
  constructor
  · intro diff cs
    unfold insertAll dedup_by_member
    rw [foldl_insert_eq]
    simp [new, memberKeys]
  · intro diff s c h
    simp [insert, h]

/-- A concrete state already containing `exContribution`'s member. -/
def exState : RoundState :=
  { contributions := [exContribution], total_score := 256, winner := some ⟨exSolution, 8⟩ }

/-- Witness for `insert_dedup_by_member`: a duplicate member leaves a
concrete state unchanged. -/
theorem insert_dedup_by_member_witness :
    insert exDiff exState { member := "M", score := 9999, solution := exSolution } = exState :=
  insert_dedup_by_member.2 exDiff exState _ (by decide)

theorem foldl_line_append (cs : List Contribution) :
    ∀ acc : String,
      cs.foldl (fun acc c => acc ++ contributionLine c) acc
        = acc ++ canonical_serialization cs := by
  induction cs with
  | nil => intro acc; simp [canonical_serialization]
  | cons c cs ih =>
    intro acc
    simp only [List.foldl_cons, canonical_serialization, ih, String.append_assoc]

/-- C4: the published attestation is the digest of exactly the
canonical line serialization of the contribution set (in the container's
iteration order): one line per contribution, each — including the last —
terminated by a newline with nothing after it; recomputing the hash over
that serialization reproduces the attestation, for any digest function
`H` standing in for SHA3-256. -/
theorem attestation_canonical (H : String → List Nat) (cs : List Contribution) :
    attestation H cs = H (canonical_serialization cs)
    ∧ ∀ c : Contribution, (contributionLine c).data.getLast? = some '\n' := by
  constructor
  · unfold attestation
    rw [foldl_line_append, String.empty_append]
  · intro c
    show (c.member ++ " " ++ hexOfBytes c.solution.d ++ " "
      ++ toString (leU64 c.solution.n) ++ "\n").data.getLast? = some '\n'
    rw [String.data_append]
    exact List.getLast?_concat _

/-- C5: after any insert sequence from the empty round, the winner is the
spec's winner — the first accepted contribution attaining the maximal
difficulty (strict improvement replaces, ties keep the earlier
entrant) — and in particular the winner's difficulty is the maximum
difficulty over the accepted contributions. -/
theorem winner_is_first_max (diff : Solution → Nat) (cs : List Contribution) :
    (insertAll diff cs).winner = specWinner diff (dedup_by_member cs)
    ∧ ((insertAll diff cs).winner.map Winner.difficulty).getD 0
        = maxDifficulty diff (dedup_by_member cs) := by
  have hw : (insertAll diff cs).winner = (dedup_by_member cs).foldl (wstep diff) none := by
    unfold insertAll dedup_by_member
    rw [foldl_insert_eq]
    simp [new, memberKeys]
  rw [hw]
  cases hA : dedup_by_member cs with
  | nil => simp [specWinner, maxDifficulty]
  | cons c rest =>
    have hfold : (c :: rest).foldl (wstep diff) none
        = some (selectFrom diff ⟨c.solution, diff c.solution⟩ rest) := by
      simp only [List.foldl_cons, wstep]
      exact foldl_wstep_some diff rest _
    rw [hfold]
    constructor
    · by_cases hm : maxDifficulty diff rest ≤ diff c.solution
      · have hmax : maxDifficulty diff (c :: rest) = diff c.solution := by
          simp only [maxDifficulty]; omega
        unfold specWinner
        rw [@List.find?_cons_of_pos _
            (fun x => diff x.solution == maxDifficulty diff (c :: rest)) c rest
            (by simp [hmax]),
          Option.map_some', selectFrom_of_le diff rest _ hm]
      · have hmax : maxDifficulty diff (c :: rest) = maxDifficulty diff rest := by
          simp only [maxDifficulty]; omega
        unfold specWinner
        rw [@List.find?_cons_of_neg _
            (fun x => diff x.solution == maxDifficulty diff (c :: rest)) c rest
            (by simp only [beq_iff_eq, hmax]; omega),
          hmax]
        exact selectFrom_of_lt diff rest _
          (by show diff c.solution < maxDifficulty diff rest; omega)
    · rw [Option.map_some', Option.getD_some, selectFrom_difficulty]
      simp [maxDifficulty]

theorem updateChallengeGo_eq (fetch : Nat → Fetched) (c : Challenge) :
    ∀ (fuel i : Nat),
      updateChallengeGo fetch c i fuel =
        match (List.range fuel).find?
            (fun k => (fetch (i + k)).pool_last_hash_at != c.lash_hash_at) with
        | some k => .ok { challenge := (fetch (i + k)).proof_challenge
                          lash_hash_at := (fetch (i + k)).pool_last_hash_at
                          min_difficulty := (fetch (i + k)).min_difficulty
                          cutoff_time := (fetch (i + k)).cutoff_time }
        | none => .error "failed to fetch new challenge" := by
  intro fuel
  induction fuel with
  | zero => intro i; rfl
  | succ fuel ih =>
    intro i
    by_cases h : (fetch i).pool_last_hash_at = c.lash_hash_at
    · have hstep : updateChallengeGo fetch c i (fuel + 1)
          = updateChallengeGo fetch c (i + 1) fuel := by
        simp [updateChallengeGo, h]
      rw [hstep, ih (i + 1), List.range_succ_eq_map]
      rw [@List.find?_cons_of_neg _
          (fun k => (fetch (i + k)).pool_last_hash_at != c.lash_hash_at) 0 _
          (by simp [h])]
      rw [List.find?_map]
      have hcomp : ((fun k => (fetch (i + k)).pool_last_hash_at != c.lash_hash_at) ∘ Nat.succ)
          = (fun k => (fetch ((i + 1) + k)).pool_last_hash_at != c.lash_hash_at) := by
        funext k
        have hik : i + Nat.succ k = (i + 1) + k := by omega
        simp [Function.comp, hik]
      rw [hcomp]
      cases hfind : (List.range fuel).find?
          (fun k => (fetch ((i + 1) + k)).pool_last_hash_at != c.lash_hash_at) with
      | none => simp
      | some k =>
        have hik : (i + 1) + k = i + Nat.succ k := by omega
        simp [hik]
    · have hstep : updateChallengeGo fetch c i (fuel + 1)
          = .ok { challenge := (fetch i).proof_challenge
                  lash_hash_at := (fetch i).pool_last_hash_at
                  min_difficulty := (fetch i).min_difficulty
                  cutoff_time := (fetch i).cutoff_time } := by
        simp [updateChallengeGo, h]
      rw [hstep, List.range_succ_eq_map]
      rw [@List.find?_cons_of_pos _
          (fun k => (fetch (i + k)).pool_last_hash_at != c.lash_hash_at) 0 _
          (by simp [h])]
      simp

/-- C9: the challenge-rotation loop performs at most 10 fetch attempts and
is total: it returns the refreshed challenge (digest from the proof,
`last_hash_at` from the pool, refreshed cutoff and minimum difficulty) of
the first of the 10 attempts at which `pool.last_hash_at` differs from
the stored value, and the internal error when all 10 attempts see an
unchanged value.  (The 1-second sleep between attempts is real time,
outside the model.) -/
theorem update_challenge_characterization (fetch : Nat → Fetched) (c : Challenge) :
    update_challenge fetch c =
      match (List.range 10).find?
          (fun i => (fetch i).pool_last_hash_at != c.lash_hash_at) with
      | some i => .ok { challenge := (fetch i).proof_challenge
                        lash_hash_at := (fetch i).pool_last_hash_at
                        min_difficulty := (fetch i).min_difficulty
                        cutoff_time := (fetch i).cutoff_time }
      | none => .error "failed to fetch new challenge" := by
  unfold update_challenge
  rw [updateChallengeGo_eq fetch c 10 0]
  have hpred : (fun k => (fetch (0 + k)).pool_last_hash_at != c.lash_hash_at)
      = (fun i => (fetch i).pool_last_hash_at != c.lash_hash_at) := by
    funext k; simp
  rw [hpred]
  cases hfind : (List.range 10).find?
      (fun i => (fetch i).pool_last_hash_at != c.lash_hash_at) with
  | none => simp
  | some k => simp

theorem busStep_fold_ge (l : List (Option Bus)) :
    ∀ acc : Nat × Nat,
      acc.1 ≤ (l.foldl busStep acc).1
      ∧ ∀ b : Bus, some b ∈ l → b.rewards ≤ (l.foldl busStep acc).1 := by
  induction l with
  | nil => intro acc; exact ⟨le_refl _, by intro b hb; cases hb⟩
  | cons oa rest ih =>
    intro acc
    have hstep : acc.1 ≤ (busStep acc oa).1 := by
      cases oa with
      | none => exact le_refl _
      | some b =>
        by_cases hbb : b.rewards > acc.1 <;> simp [busStep, hbb] <;> omega
    obtain ⟨ih1, ih2⟩ := ih (busStep acc oa)
    refine ⟨le_trans hstep ih1, ?_⟩
    intro b hb
    rcases List.mem_cons.mp hb with heq | hmem
    · have : b.rewards ≤ (busStep acc oa).1 := by
        rw [← heq]
        by_cases hbb : b.rewards > acc.1 <;> simp [busStep, hbb] <;> omega
      exact le_trans this ih1
    · exact ih2 b hmem

theorem busStep_fold_provenance (l : List (Option Bus)) :
    ∀ acc : Nat × Nat,
      l.foldl busStep acc = acc
      ∨ ∃ b : Bus, some b ∈ l ∧ l.foldl busStep acc = (b.rewards, b.id) := by
  induction l with
  | nil => intro acc; exact Or.inl rfl
  | cons oa rest ih =>
    intro acc
    cases oa with
    | none =>
      rcases ih acc with h | ⟨b, hb, he⟩
      · exact Or.inl h
      · exact Or.inr ⟨b, List.mem_cons_of_mem _ hb, he⟩
    | some b0 =>
      by_cases h : b0.rewards > acc.1
      · have hs : busStep acc (some b0) = (b0.rewards, b0.id) := by simp [busStep, h]
        rcases ih (b0.rewards, b0.id) with he | ⟨b, hb, he⟩
        · refine Or.inr ⟨b0, List.mem_cons_self _ _, ?_⟩
          simp only [List.foldl_cons, hs, he]
        · exact Or.inr ⟨b, List.mem_cons_of_mem _ hb, by simp only [List.foldl_cons, hs, he]⟩
      · have hs : busStep acc (some b0) = acc := by simp [busStep, h]
        rcases ih acc with he | ⟨b, hb, he⟩
        · exact Or.inl (by simp only [List.foldl_cons, hs, he])
        · exact Or.inr ⟨b, List.mem_cons_of_mem _ hb, by simp only [List.foldl_cons, hs, he]⟩

theorem busConsistent_get (l : List (Option Bus)) :
    ∀ i0, busAccountsConsistentFrom i0 l = true →
      ∀ p b, l.get? p = some (some b) → b.id = i0 + p := by
  induction l with
  | nil => intro i0 _ p b hp; simp at hp
  | cons oa rest ih =>
    intro i0 hcons p b hp
    cases p with
    | zero =>
      simp only [List.get?] at hp
      cases oa with
      | none => cases hp
      | some b0 =>
        have hb0 : b0 = b := by simpa using hp
        subst hb0
        rw [busAccountsConsistentFrom] at hcons
        have hid := (Bool.and_eq_true_iff.mp hcons).1
        simp only [beq_iff_eq] at hid
        omega
    | succ p =>
      simp only [List.get?] at hp
      have hrest : busAccountsConsistentFrom (i0 + 1) rest = true := by
        cases oa with
        | none => exact hcons
        | some b0 =>
          rw [busAccountsConsistentFrom] at hcons
          exact (Bool.and_eq_true_iff.mp hcons).2
      have := ih (i0 + 1) hrest p b hp
      omega

theorem allZero_fold (l : List (Option Bus)) (hz : allBalancesZero l = true) :
    ∀ acc : Nat × Nat, l.foldl busStep acc = acc := by
  induction l with
  | nil => intro acc; rfl
  | cons oa rest ih =>
    intro acc
    simp only [allBalancesZero, List.all_cons, Bool.and_eq_true_iff] at hz
    have hstep : busStep acc oa = acc := by
      cases oa with
      | none => rfl
      | some b =>
        have : b.rewards = 0 := by simpa using hz.1
        simp [busStep, this]
    rw [List.foldl_cons, hstep]
    exact ih (by simp [allBalancesZero, hz.2]) acc

/-- C8: if each fetched bus account self-reports its own index (always
true of on-chain bus accounts), the bus chosen by `find_bus` has a
fetched rewards balance at least that of the randomly seeded bus, and
when every fetched balance is zero or unreadable the seeded bus itself is
returned. -/
theorem find_bus_balance_ge_seed (seed : Nat) (accounts : List (Option Bus))
    (hcons : busAccountsConsistentFrom 0 accounts = true) :
    fetchedBalance accounts seed ≤ fetchedBalance accounts (find_bus seed accounts)
    ∧ (allBalancesZero accounts = true → find_bus seed accounts = seed) := by
  constructor
  · rcases busStep_fold_provenance accounts (0, seed) with heq | ⟨b, hmem, heq⟩
    · unfold find_bus
      rw [heq]
    · have hid : fetchedBalance accounts b.id = b.rewards := by
        obtain ⟨p, hp⟩ := List.get?_of_mem hmem
        have := busConsistent_get accounts 0 hcons p b hp
        unfold fetchedBalance
        rw [this, Nat.zero_add, hp]
      have hchosen : find_bus seed accounts = b.id := by unfold find_bus; rw [heq]
      rw [hchosen, hid]
      cases hs : accounts.get? seed with
      | none =>
        unfold fetchedBalance
        rw [hs]
        exact Nat.zero_le _
      | some oa =>
        cases oa with
        | none =>
          unfold fetchedBalance
          rw [hs]
          exact Nat.zero_le _
        | some b' =>
          have hmem' : some b' ∈ accounts := List.get?_mem hs
          have hle := (busStep_fold_ge accounts (0, seed)).2 b' hmem'
          rw [heq] at hle
          unfold fetchedBalance
          rw [hs]
          exact hle
  · intro hz
    unfold find_bus
    rw [allZero_fold accounts hz]

/-- Witness for `find_bus_balance_ge_seed` on a concrete account vector. -/
theorem find_bus_balance_ge_seed_witness :
    busAccountsConsistentFrom 0 [some ⟨0, 3⟩, none, some ⟨2, 7⟩] = true
    ∧ fetchedBalance [some ⟨0, 3⟩, none, some ⟨2, 7⟩] 1
        ≤ fetchedBalance [some ⟨0, 3⟩, none, some ⟨2, 7⟩]
            (find_bus 1 [some ⟨0, 3⟩, none, some ⟨2, 7⟩]) :=
  ⟨by decide, (find_bus_balance_ge_seed 1 [some ⟨0, 3⟩, none, some ⟨2, 7⟩] (by decide)).1⟩

/-- C1 counterexample: a legitimately reachable submission round — the
round-state invariant holds and the `total_score > 0` guard passes — in
which the reconciliation check fires (`pool.last_hash_at` advanced): the
irregular reset clears the winner before winner selection, and
`submit_and_reset` returns the "no solutions were submitted" internal
error, so that branch is reachable from a driver-entered submission. -/
theorem irregular_reset_reaches_no_solutions :
    Inv exState ∧ 0 < exState.total_score
    ∧ driverRound exDiff exState true exContribution
        = .error "no solutions were submitted" := by
  refine ⟨by decide, by decide, by rfl⟩

/-- C1 amended: whenever the driver invokes `submit_and_reset` the winner
is `Some` at entry (`total_score > 0` plus the invariant force it), and
provided the reconciliation check does not fire (no irregular reset) the
"no solutions were submitted" branch is unreachable on both driver
paths — the guarded one and the blocking-wait one that inserts the first
contribution; in the irregular-reset path the state is cleared before
winner selection and the error is returned instead. -/
theorem driver_submit_winner_some (diff : Solution → Nat) (s : RoundState)
    (c : Contribution) (hInv : Inv s) :
    (0 < s.total_score → s.winner.isSome = true)
    ∧ ∃ w s', driverRound diff s false c = .ok (w, s') := by
  have hpos : 0 < s.total_score → s.winner.isSome = true := by
    intro h
    refine hInv.2.mpr ?_
    intro hnil
    rw [hInv.1, hnil] at h
    simp [scoreSum] at h
  refine ⟨hpos, ?_⟩
  unfold driverRound
  by_cases h : s.total_score > 0
  · obtain ⟨w, hw⟩ := Option.isSome_iff_exists.mp (hpos h)
    exact ⟨w, reset s, by simp [h, submit_and_reset, winnerOrError, hw]⟩
  · have hsome : (insert diff s c).winner.isSome = true := by
      unfold insert
      by_cases hm : hasMember (memberKeys s.contributions) c.member
      · simp only [hm, if_true]
        apply hInv.2.mpr
        intro hnil
        rw [hnil] at hm
        simp [hasMember, memberKeys] at hm
      · simp only [hm, Bool.false_eq_true, if_false]
        exact wstep_isSome diff s.winner c
    obtain ⟨w, hw⟩ := Option.isSome_iff_exists.mp hsome
    exact ⟨w, reset (insert diff s c),
      by simp [h, submit_and_reset, winnerOrError, hw]⟩

/-- Witness for `driver_submit_winner_some`: the blocking-wait path on
the empty initial round with a concrete first contribution. -/
theorem driver_submit_winner_some_witness :
    ∃ w s', driverRound exDiff new false exContribution = .ok (w, s') :=
  (driver_submit_winner_some exDiff new exContribution (by decide)).2

theorem u64_id (n : Nat) (h : n < 2 ^ 64) : u64 n = n := Nat.mod_eq_of_lt h

theorem u128_id (n : Nat) (h : n < 2 ^ 128) : u128 n = n := Nat.mod_eq_of_lt h

theorem u128satMul_id (a b : Nat) (h : a * b < 2 ^ 128) : u128satMul a b = a * b := by
  unfold u128satMul; omega

theorem mul_commission_lt (a b : Nat) (ha : a < 2 ^ 57) (hb : b ≤ 100) :
    a * b < 2 ^ 64 := by
  have h1 : a * b ≤ a * 100 := Nat.mul_le_mul (le_refl a) hb
  have h2 : a * 100 < 2 ^ 57 * 100 :=
    mul_lt_mul_of_pos_right ha (by norm_num)
  have h3 : (2 : Nat) ^ 57 * 100 < 2 ^ 64 := by norm_num
  omega

theorem commission_div_le (a b : Nat) (hb : b ≤ 100) : a * b / 100 ≤ a := by
  calc a * b / 100 ≤ a * 100 / 100 :=
        Nat.div_le_div_right (Nat.mul_le_mul (le_refl a) hb)
    _ = a := Nat.mul_div_cancel a (by norm_num)

theorem split_stake_eq_spec (b : Option BoostEvent) (oc sc : Nat)
    (hb : rewardOf b < 2 ^ 57) :
    split_stake_rewards_for_miners b oc sc = spec_boost_part b (100 - oc - sc)
    ∧ spec_boost_part b (100 - oc - sc) ≤ rewardOf b := by
  cases b with
  | none => simp [split_stake_rewards_for_miners, spec_boost_part, rewardOf]
  | some be =>
    have hb' : be.reward < 2 ^ 57 := hb
    have hlt : be.reward * (100 - oc - sc) < 2 ^ 128 :=
      lt_trans (mul_commission_lt _ _ hb' (by omega)) (by norm_num)
    refine ⟨?_, commission_div_le _ _ (by omega)⟩
    show u128 (be.reward * (100 - oc - sc)) / 100 = be.reward * (100 - oc - sc) / 100
    rw [u128_id _ hlt]

theorem miner_pot_eq_spec (rewards : Rewards) (oc sc : Nat)
    (hbase : rewards.base < 2 ^ 57)
    (hb1 : rewardOf rewards.boost_1 < 2 ^ 57)
    (hb2 : rewardOf rewards.boost_2 < 2 ^ 57)
    (hb3 : rewardOf rewards.boost_3 < 2 ^ 57) :
    u128 (u64 (rewards.base * (100 - oc)) / 100
        + split_stake_rewards_for_miners rewards.boost_1 oc sc
        + split_stake_rewards_for_miners rewards.boost_2 oc sc
        + split_stake_rewards_for_miners rewards.boost_3 oc sc)
      = spec_miner_pot rewards oc sc
    ∧ spec_miner_pot rewards oc sc < 2 ^ 64 := by
  obtain ⟨e1, l1⟩ := split_stake_eq_spec rewards.boost_1 oc sc hb1
  obtain ⟨e2, l2⟩ := split_stake_eq_spec rewards.boost_2 oc sc hb2
  obtain ⟨e3, l3⟩ := split_stake_eq_spec rewards.boost_3 oc sc hb3
  have hmr : u64 (rewards.base * (100 - oc)) = rewards.base * (100 - oc) :=
    u64_id _ (mul_commission_lt _ _ hbase (by omega))
  have hmrle : rewards.base * (100 - oc) / 100 ≤ rewards.base :=
    commission_div_le _ _ (by omega)
  rw [hmr, e1, e2, e3]
  unfold spec_miner_pot
  constructor
  · apply u128_id
    have : (2 : Nat) ^ 57 * 4 < 2 ^ 128 := by norm_num
    omega
  · have : (2 : Nat) ^ 57 * 4 < 2 ^ 64 := by norm_num
    omega

/-- C2 counterexample: with commissions 5 and 10 (so the claim's
precondition `operator + staker ≤ 100` holds) and `base = 2 ^ 62`, the
operator attribution computed by the code differs from the same
computation carried out in 128-bit width, because
`rewards.base * operator_commission` is a 64-bit product that wraps. -/
theorem operator_arith_not_128bit :
    5 + 10 ≤ 100
    ∧ (rewards_distribution_operator (fun m _ => m) "P" "OP"
        { base := 2 ^ 62, boost_1 := none, boost_2 := none, boost_3 := none } 5).2
      ≠ spec_operator_amount
        { base := 2 ^ 62, boost_1 := none, boost_2 := none, boost_3 := none } 5 := by
  refine ⟨by norm_num, by decide⟩

theorem operatorStakeStep_eq_spec (acc : Nat) (b : Option BoostEvent) (oc : Nat)
    (hoc : oc ≤ 100) (hacc : acc < 3 * 2 ^ 57) (hb : rewardOf b < 2 ^ 57) :
    operatorStakeStep acc b oc = acc + spec_boost_part b oc
    ∧ spec_boost_part b oc ≤ rewardOf b := by
  cases b with
  | none => simp [operatorStakeStep, spec_boost_part]
  | some be =>
    have hb' : be.reward < 2 ^ 57 := hb
    have hprod : u64 (be.reward * oc) = be.reward * oc :=
      u64_id _ (mul_commission_lt _ _ hb' hoc)
    have hle : be.reward * oc / 100 ≤ be.reward := commission_div_le _ _ hoc
    refine ⟨?_, hle⟩
    show u64 (acc + u64 (be.reward * oc) / 100) = acc + be.reward * oc / 100
    rw [hprod]
    apply u64_id
    have : 3 * (2 : Nat) ^ 57 + 2 ^ 57 < 2 ^ 64 := by norm_num
    omega

theorem rewards_distribution_operator_eq_spec (memberPda : Pubkey → Pubkey → String)
    (pool auth : Pubkey) (rewards : Rewards) (oc : Nat)
    (hoc : oc ≤ 100) (hbase : rewards.base < 2 ^ 57)
    (hb1 : rewardOf rewards.boost_1 < 2 ^ 57)
    (hb2 : rewardOf rewards.boost_2 < 2 ^ 57)
    (hb3 : rewardOf rewards.boost_3 < 2 ^ 57) :
    rewards_distribution_operator memberPda pool auth rewards oc
      = (memberPda auth pool, spec_operator_amount rewards oc) := by
  have h57 : (0 : Nat) < 2 ^ 57 := by norm_num
  obtain ⟨s1, p1⟩ :=
    operatorStakeStep_eq_spec 0 rewards.boost_1 oc hoc (by omega) hb1
  obtain ⟨s2, p2⟩ :=
    operatorStakeStep_eq_spec (0 + spec_boost_part rewards.boost_1 oc)
      rewards.boost_2 oc hoc (by omega) hb2
  obtain ⟨s3, p3⟩ :=
    operatorStakeStep_eq_spec
      ((0 + spec_boost_part rewards.boost_1 oc) + spec_boost_part rewards.boost_2 oc)
      rewards.boost_3 oc hoc (by omega) hb3
  have hmine : u64 (rewards.base * oc) = rewards.base * oc :=
    u64_id _ (mul_commission_lt _ _ hbase hoc)
  have hminele : rewards.base * oc / 100 ≤ rewards.base := commission_div_le _ _ hoc
  unfold rewards_distribution_operator
  rw [hmine, s1, s2, s3]
  unfold spec_operator_amount
  have htot : u64 (rewards.base * oc / 100
      + (0 + spec_boost_part rewards.boost_1 oc + spec_boost_part rewards.boost_2 oc
          + spec_boost_part rewards.boost_3 oc))
      = rewards.base * oc / 100
      + (0 + spec_boost_part rewards.boost_1 oc + spec_boost_part rewards.boost_2 oc
          + spec_boost_part rewards.boost_3 oc) := by
    apply u64_id
    have : (2 : Nat) ^ 57 * 4 < 2 ^ 64 := by norm_num
    omega
  dsimp only
  rw [htot]
  exact congrArg (fun t => (memberPda auth pool, t)) (by omega)

theorem nat_mul_lt_mul (a b A B : Nat) (ha : a < A) (hb : b < B) : a * b < A * B := by
  have hB : 0 < B := by omega
  calc a * b ≤ a * B := Nat.mul_le_mul (le_refl a) (Nat.le_of_lt hb)
    _ < A * B := mul_lt_mul_of_pos_right ha hB

theorem scaled_div_lt (score pot denom bound : Nat) (hscore : score ≤ denom)
    (hpot : pot < bound) : score * pot / denom < bound := by
  rcases Nat.eq_zero_or_pos denom with h0 | hpos
  · rw [h0, Nat.div_zero]; omega
  · calc score * pot / denom ≤ denom * pot / denom :=
        Nat.div_le_div_right (Nat.mul_le_mul hscore (le_refl pot))
      _ = pot := Nat.mul_div_cancel_left pot hpos
      _ < bound := hpot

theorem rewards_distribution_eq_spec (memberPda : Pubkey → Pubkey → String)
    (contributions : List Contribution) (pool : Pubkey) (rewards : Rewards)
    (oc sc : Nat) (hbase : rewards.base < 2 ^ 57)
    (hb1 : rewardOf rewards.boost_1 < 2 ^ 57)
    (hb2 : rewardOf rewards.boost_2 < 2 ^ 57)
    (hb3 : rewardOf rewards.boost_3 < 2 ^ 57)
    (hscores : ∀ c ∈ contributions, c.score < 2 ^ 64) :
    rewards_distribution memberPda contributions (scoreSum contributions) pool rewards oc sc
      = contributions.map (fun c =>
          (memberPda c.member pool,
            spec_miner_amount c.score (spec_miner_pot rewards oc sc)
              (scoreSum contributions))) := by
  obtain ⟨hpot, hlt⟩ := miner_pot_eq_spec rewards oc sc hbase hb1 hb2 hb3
  unfold rewards_distribution
  dsimp only
  rw [hpot]
  apply List.map_congr_left
  intro c hc
  have hscore := hscores c hc
  have hsat : u128satMul c.score (spec_miner_pot rewards oc sc)
      = c.score * spec_miner_pot rewards oc sc := by
    apply u128satMul_id
    calc c.score * spec_miner_pot rewards oc sc
        < 2 ^ 64 * 2 ^ 64 := nat_mul_lt_mul _ _ _ _ hscore hlt
      _ = 2 ^ 128 := by norm_num
  rw [hsat]
  have hcle : c.score ≤ scoreSum contributions :=
    List.le_sum_of_mem (List.mem_map_of_mem Contribution.score hc)
  rw [u64_id _ (scaled_div_lt _ _ _ _ hcle hlt)]
  rfl

theorem rewards_distribution_boost_some_eq_spec (memberPda : Pubkey → Pubkey → String)
    (stake : Stakers) (pool : Pubkey) (be : BoostEvent) (sc : Nat)
    (stakers : StakerBalances)
    (hsc : sc ≤ 100) (hr : be.reward < 2 ^ 57)
    (hlook : lookupStake stake be.mint = some stakers)
    (hsum : (stakers.map Prod.snd).sum < 2 ^ 64) :
    rewards_distribution_boost memberPda stake pool (some be) sc
      = .ok (stakers.map (fun p =>
          (memberPda p.1 pool,
            p.2 * spec_staker_pot be sc / (stakers.map Prod.snd).sum))) := by
  unfold rewards_distribution_boost
  dsimp only
  rw [hlook]
  dsimp only
  have hsr : u128 (be.reward * sc) = be.reward * sc :=
    u128_id _ (lt_trans (mul_commission_lt _ _ hr hsc) (by norm_num))
  have hden : u64 ((stakers.map Prod.snd).sum) = (stakers.map Prod.snd).sum :=
    u64_id _ hsum
  rw [hsr, hden]
  refine congrArg _ ?_
  apply List.map_congr_left
  intro p hp
  have hple : p.2 ≤ (stakers.map Prod.snd).sum :=
    List.le_sum_of_mem (List.mem_map_of_mem Prod.snd hp)
  have hsrle : be.reward * sc / 100 < 2 ^ 64 := by
    have := commission_div_le be.reward sc hsc
    have h57 : (2 : Nat) ^ 57 < 2 ^ 64 := by norm_num
    omega
  have hsat : u128satMul p.2 (be.reward * sc / 100) = p.2 * (be.reward * sc / 100) := by
    apply u128satMul_id
    calc p.2 * (be.reward * sc / 100) < 2 ^ 64 * 2 ^ 64 :=
        nat_mul_lt_mul _ _ _ _ (by omega) hsrle
      _ = 2 ^ 128 := by norm_num
  rw [hsat, u64_id _ (scaled_div_lt _ _ _ _ hple hsrle)]
  rfl

/-- C2 amended: in the three attribution computations every division
truncates toward zero and a zero denominator yields an attributed amount
of 0 rather than a panic (the `checked_div(..).unwrap_or(0)` shares, and
in particular every miner amount is 0 when `total_score = 0`); the
per-share scalings are 128-bit saturating multiplications; but — contrary
to the claim — the commission products of the miner pot and the whole
operator computation are 64-bit and the staker denominator is a 64-bit
sum, so the computations agree with their full-width counterparts only
under bounds: base and boost rewards below `2 ^ 57`, scores below
`2 ^ 64` and staker balances summing below `2 ^ 64`. -/
theorem rewards_arithmetic_bounded (memberPda : Pubkey → Pubkey → String)
    (pool auth : Pubkey) (rewards : Rewards) (oc sc : Nat)
    (contributions : List Contribution) (stake : Stakers)
    (be : BoostEvent) (stakers : StakerBalances)
    (hcs : oc + sc ≤ 100)
    (hbase : rewards.base < 2 ^ 57)
    (hb1 : rewardOf rewards.boost_1 < 2 ^ 57)
    (hb2 : rewardOf rewards.boost_2 < 2 ^ 57)
    (hb3 : rewardOf rewards.boost_3 < 2 ^ 57)
    (hscores : ∀ c ∈ contributions, c.score < 2 ^ 64)
    (hr : be.reward < 2 ^ 57)
    (hlook : lookupStake stake be.mint = some stakers)
    (hsum : (stakers.map Prod.snd).sum < 2 ^ 64) :
    rewards_distribution memberPda contributions (scoreSum contributions) pool rewards oc sc
      = contributions.map (fun c =>
          (memberPda c.member pool,
            spec_miner_amount c.score (spec_miner_pot rewards oc sc)
              (scoreSum contributions)))
    ∧ rewards_distribution_boost memberPda stake pool (some be) sc
        = .ok (stakers.map (fun p =>
            (memberPda p.1 pool,
              p.2 * spec_staker_pot be sc / (stakers.map Prod.snd).sum)))
    ∧ rewards_distribution_operator memberPda pool auth rewards oc
        = (memberPda auth pool, spec_operator_amount rewards oc)
    ∧ rewards_distribution memberPda contributions 0 pool rewards oc sc
        = contributions.map (fun c => (memberPda c.member pool, 0)) := by
  refine ⟨rewards_distribution_eq_spec memberPda contributions pool rewards oc sc
      hbase hb1 hb2 hb3 hscores,
    rewards_distribution_boost_some_eq_spec memberPda stake pool be sc stakers
      (by omega) hr hlook hsum,
    rewards_distribution_operator_eq_spec memberPda pool auth rewards oc
      (by omega) hbase hb1 hb2 hb3, ?_⟩
  unfold rewards_distribution
  dsimp only
  apply List.map_congr_left
  intro c _
  simp [Nat.div_zero, u64]

/-- Witness for `rewards_arithmetic_bounded` at the scenario-6 inputs: the
operator attribution equals the full-width spec amount. -/
theorem rewards_arithmetic_bounded_witness :
    rewards_distribution_operator (fun m _ => m) "P" "OP" exRewards 5
      = ("OP", spec_operator_amount exRewards 5) :=
  (rewards_arithmetic_bounded (fun m _ => m) "P" "OP" exRewards 5 10
    [exContribution] exStake ⟨"X", 500⟩ [("S", 100)]
    (by decide) (by decide) (by decide) (by decide) (by decide)
    (by decide) (by decide) (by rfl) (by decide)).2.2.1

end OrePool
